import Mathlib

/-!
Verification of the ICA-AROMA feature-extraction and classification engine
(`src/aroma.py`) against its natural-language specification.

Matrices are embedded as lists of rows.  Python floats are modelled as exact
rationals (`ℚ`) wherever the computation stays inside field arithmetic, and as
real numbers (`ℝ`) where Pearson correlations (square roots) are involved.
-/

namespace Aroma

/-- Number of columns of a matrix, as numpy's `shape[1]` (length of the first row). -/
def ncols {α : Type} (m : List (List α)) : ℕ := (m.headD []).length

/-- Column `j` of a matrix (entries default to `0` past the end of a row). -/
def colOf {α : Type} [Zero α] (m : List (List α)) (j : ℕ) : List α :=
  m.map (fun r => r.getD j 0)

/-- Entry `m[t][j]`, defaulting to `0` out of range. -/
def entryOf {α : Type} [Zero α] (m : List (List α)) (t j : ℕ) : α :=
  (m.getD t []).getD j 0

/-! ### Classifier (`classification`, src/aroma.py:426-462) -/

/-- `csf_threshold = 0.10` (src/aroma.py:454). -/
def csf_threshold : ℚ := 0.10

/-- `hfc_threshold = 0.35` (src/aroma.py:455). -/
def hfc_threshold : ℚ := 0.35

/-- The calibrated hyperplane constants (src/aroma.py:456). -/
def hyperplane : List ℚ := [-19.9751070082159, 9.95127547670627, 24.8333160239175]

/-- `projection = hyperplane[0] + np.vstack([max_rp_correl, edge_fraction]).T.dot(hyperplane[1:])`
(src/aroma.py:459): row-wise dot product with the last two hyperplane weights. -/
def projection (max_rp_correl edge_fraction : List ℚ) : List ℚ :=
  List.zipWith
    (fun r e => hyperplane.getD 0 0 + (r * hyperplane.getD 1 0 + e * hyperplane.getD 2 0))
    max_rp_correl edge_fraction

/-- `classification` (src/aroma.py:426-462): `np.where` over the disjunction of the
three criteria returns the list of indices, in ascending order, where the condition holds. -/
def classification (max_rp_correl edge_fraction hfc csf_fraction : List ℚ) : List ℕ :=
  (List.range max_rp_correl.length).filter (fun i =>
    decide (0 < (projection max_rp_correl edge_fraction).getD i 0) ||
    decide (csf_threshold < csf_fraction.getD i 0) ||
    decide (hfc_threshold < hfc.getD i 0))

/-! ### Spatial feature (`feature_spatial`, src/aroma.py:388-423) -/

/-- Modelled from the spec (§4.1 Masked Aggregation): `zsums` (src/aroma.py:69-105)
shells out to the external FSL tools `fslmaths -abs` and `fslstats` (-V and -M), which are
not part of this repository; per the stated contract the result for a frame is the
sum of its absolute voxel values over the whole volume. -/
def zsum (frame : List ℚ) : ℚ :=
  ∑ i ∈ Finset.range frame.length, |frame.getD i 0|

/-- Modelled from the spec (§4.1): sum of absolute voxel values within a binary mask. -/
def zsumMask (frame : List ℚ) (mask : List Bool) : ℚ :=
  ∑ i ∈ Finset.range frame.length, if mask.getD i false then |frame.getD i 0| else 0

/-- `np.where(total_sum > csf_sum, (outside_sum + edge_sum) / (total_sum - csf_sum), 0)`
(src/aroma.py:420), elementwise. -/
def edgeFraction (total csf edge outside : List ℚ) : List ℚ :=
  (List.range total.length).map (fun i =>
    if csf.getD i 0 < total.getD i 0 then
      (outside.getD i 0 + edge.getD i 0) / (total.getD i 0 - csf.getD i 0)
    else 0)

/-- `np.where(total_sum > csf_sum, csf_sum / total_sum, 0)` (src/aroma.py:421), elementwise. -/
def csfFraction (total csf : List ℚ) : List ℚ :=
  (List.range total.length).map (fun i =>
    if csf.getD i 0 < total.getD i 0 then csf.getD i 0 / total.getD i 0 else 0)

/-- `feature_spatial` (src/aroma.py:388-423) on explicit voxel data: each component is a
frame of voxel Z-values, and the three fixed anatomical masks are binary voxel masks.
Returns `(edge_fraction, csf_fraction)`. -/
def feature_spatial (frames : List (List ℚ)) (csfMask edgeMask outMask : List Bool) :
    List ℚ × List ℚ :=
  let total := frames.map zsum
  let csf := frames.map (fun f => zsumMask f csfMask)
  let edge := frames.map (fun f => zsumMask f edgeMask)
  let outside := frames.map (fun f => zsumMask f outMask)
  (edgeFraction total csf edge outside, csfFraction total csf)

/-! ### Frequency feature (`feature_frequency`, src/aroma.py:337-385) -/

/-- Minimum of the non-empty list `x :: xs`, seeded with the head. -/
def listMin (x : ℚ) (xs : List ℚ) : ℚ := xs.foldl min x

/-- `np.argmin`: index of the first occurrence of the minimum (0 on an empty list). -/
def npArgmin : List ℚ → ℕ
  | [] => 0
  | x :: xs => (x :: xs).findIdx (fun v => decide (v = listMin x xs))

/-- Linear rescaling of frequencies onto `[0,1]` (src/aroma.py:372): 0.01 Hz maps to 0
and the Nyquist frequency maps to 1. -/
def rescaleFreq (nyquist f : ℚ) : ℚ := (f - 0.01) / (nyquist - 0.01)

/-- The frequency associated with row `i` of an `F`-row `ftmix` (src/aroma.py:365). -/
def rowFrequency (nyquist : ℚ) (F i : ℕ) : ℚ := nyquist * ((i : ℚ) + 1) / (F : ℚ)

/-- `nyquist = sample_frequency / 2` with `sample_frequency = 1 / t_r`
(src/aroma.py:358-359). -/
def nyquistOf (t_r : ℚ) : ℚ := 1 / t_r / 2

/-- `frequencies = nyquist * (np.arange(ftmix.shape[0]) + 1) / ftmix.shape[0]`
(src/aroma.py:365). -/
def frequenciesOf (nyquist : ℚ) (F : ℕ) : List ℚ :=
  (List.range F).map (rowFrequency nyquist F)

/-- The boolean row selection `ftmix[frequencies > 0.01, :]` together with
`frequencies[frequencies > 0.01]` (src/aroma.py:368-369), realised by zipping the
frequency of each row with the row and filtering. -/
def keptPairsOf (ftmix : List (List ℚ)) (nyquist : ℚ) : List (ℚ × List ℚ) :=
  (List.zip (frequenciesOf nyquist ftmix.length) ftmix).filter
    (fun p => decide ((0.01 : ℚ) < p.1))

/-- `np.cumsum(col) / np.sum(col)` for one component's kept spectral column
(src/aroma.py:375). -/
def cumsumFractions (col : List ℚ) : List ℚ :=
  (List.range col.length).map (fun i => (col.take (i + 1)).sum / col.sum)

/-- `feature_frequency` (src/aroma.py:337-385).  Row `i` of `ftmix` carries frequency
`nyquist * (i+1) / F`; rows with frequency above 0.01 Hz are kept; for each component
the feature is the rescaled frequency at the row whose cumulative power fraction has
least squared distance to 0.5 (`np.argmin` takes the first minimiser). -/
def feature_frequency (ftmix : List (List ℚ)) (t_r : ℚ) : List ℚ :=
  let nyquist := nyquistOf t_r
  let keptPairs := keptPairsOf ftmix nyquist
  let kept := keptPairs.map Prod.snd
  let normalised := (keptPairs.map Prod.fst).map (rescaleFreq nyquist)
  (List.range (ncols ftmix)).map (fun c =>
    normalised.getD
      (npArgmin ((cumsumFractions (kept.map (fun r => r.getD c 0))).map
        (fun x => (x - 0.5) ^ 2))) 0)

/-- Left-to-right strict-minimum scan, keeping the earliest minimum: `i` is the index of
the next element, `best` the index of the smallest value `bv` seen so far. -/
def argminScanAux : List ℚ → ℕ → ℕ → ℚ → ℕ
  | [], _, best, _ => best
  | x :: xs, i, best, bv =>
    if x < bv then argminScanAux xs (i + 1) i x else argminScanAux xs (i + 1) best bv

/-- The claim's tie-breaking rule: the index of the minimum found by a left-to-right
scan that keeps the earliest minimum. -/
def argminScan : List ℚ → ℕ
  | [] => 0
  | x :: xs => argminScanAux xs 1 0 x

/-- The indices of the rows whose associated frequency lies strictly above 0.01 Hz. -/
def rowsAbove (nyquist : ℚ) (F : ℕ) : List ℕ :=
  (List.range F).filter (fun i => decide ((0.01 : ℚ) < rowFrequency nyquist F i))

/-- The claim's per-component description of the frequency feature (spec §4.4): row
frequencies `nyquist*(i+1)/F`, rows strictly above 0.01 Hz kept, cumulative power
fraction per kept row, the first row with minimal squared distance to 0.5 selected by a
left-to-right minimum scan, and that row's linearly rescaled frequency returned. -/
def hfcClaim (ftmix : List (List ℚ)) (t_r : ℚ) (c : ℕ) : ℚ :=
  let nyquist := nyquistOf t_r
  let rows := rowsAbove nyquist ftmix.length
  let powers := rows.map (fun i => (ftmix.getD i []).getD c 0)
  rescaleFreq nyquist
    (rowFrequency nyquist ftmix.length
      (rows.getD (argminScan ((cumsumFractions powers).map (fun x => (x - 0.5) ^ 2))) 0))

/-! ### Denoising (`denoising`, src/aroma.py:521-569) -/

/-- Observable effects of one `denoising` invocation: either a `fsl_regfilt` request
carrying the component indices and the aggressiveness flag, or the warning plus plain
file copy taken when no component was classified as motion. -/
inductive DenoiseEvent : Type
  | regfiltRequest (indices : List ℕ) (aggressive : Bool)
  | warnNoComponents
  | copyFile
deriving DecidableEq

/-- `denoising` (src/aroma.py:521-569): with a non-empty index list a single
`fsl_regfilt` call is made (aggressive adds `-a`); otherwise a warning that no
denoising was applied is logged and the input file is copied to the output. -/
def denoising (denoise_indices : List ℕ) (aggressive : Bool) : List DenoiseEvent :=
  if denoise_indices.length > 0 then
    [DenoiseEvent.regfiltRequest denoise_indices aggressive]
  else
    [DenoiseEvent.warnNoComponents, DenoiseEvent.copyFile]

/-- The regression-filter requests among a list of denoise events. -/
def regfiltRequests (events : List DenoiseEvent) : List (List ℕ × Bool) :=
  events.filterMap (fun ev => match ev with
    | DenoiseEvent.regfiltRequest idx aggr => some (idx, aggr)
    | _ => none)

/-- Recognizer for the no-components warning. -/
def isWarning : DenoiseEvent → Bool
  | DenoiseEvent.warnNoComponents => true
  | _ => false

/-- Recognizer for the plain file copy. -/
def isCopy : DenoiseEvent → Bool
  | DenoiseEvent.copyFile => true
  | _ => false

/-- The processing stages of `run_aroma` (src/aroma.py:758-846), with external tool
invocations abstracted to labels; the denoising stage carries its observable events. -/
inductive AromaStep : Type
  | icaStep
  | registerStep
  | spatialStep
  | temporalStep
  | frequencyStep
  | classifyStep
  | denoiseStep (events : List DenoiseEvent)
  | saveStep
deriving DecidableEq

/-- Step 3 of `run_aroma` (src/aroma.py:834-841): the `denoising` invocations made for
a given denoise type and the motion-classified index list. -/
def denoisePhase (denoise_type : String) (motion_ic_indices : List ℕ) : List AromaStep :=
  if denoise_type ∈ ["nonaggr", "aggr", "both"] then
    (if denoise_type ∈ ["nonaggr", "both"] then
      [AromaStep.denoiseStep (denoising motion_ic_indices false)] else []) ++
    (if denoise_type ∈ ["aggr", "both"] then
      [AromaStep.denoiseStep (denoising motion_ic_indices true)] else [])
  else []

/-- All regression-filter requests issued during the denoising stage. -/
def phaseRegfiltRequests (steps : List AromaStep) : List (List ℕ × Bool) :=
  steps.flatMap (fun st => match st with
    | AromaStep.denoiseStep evs => regfiltRequests evs
    | _ => [])

/-- Number of no-components warnings logged during the denoising stage. -/
def phaseWarnings (steps : List AromaStep) : ℕ :=
  (steps.map (fun st => match st with
    | AromaStep.denoiseStep evs => evs.countP isWarning
    | _ => 0)).sum

/-- Number of plain file copies made during the denoising stage. -/
def phaseCopies (steps : List AromaStep) : ℕ :=
  (steps.map (fun st => match st with
    | AromaStep.denoiseStep evs => evs.countP isCopy
    | _ => 0)).sum

/-- `run_aroma` (src/aroma.py:758-846), control skeleton.  The external collaborators
(input files, MELODIC, registration, masks, realignment parameters) are abstracted:
each boolean parameter records whether the corresponding `assert`-checked precondition
holds, and `motion_ic_indices` stands for the classification stage's result.  The
asserts are modelled in source order; the result is the trace of stages run. -/
def run_aroma (infileOk outdirOk maskOk : Bool) (dim : ℕ) (t_r : ℚ)
    (melodicOk affmatOk warpOk mcOk : Bool) (denoise_type : String)
    (motion_ic_indices : List ℕ) (verbose : Bool) : Except String (List AromaStep) :=
  if !infileOk then Except.error "assert isfile(infile)"
  else if !outdirOk then Except.error "assert is_writable_directory(outdir)"
  else if !maskOk then Except.error "assert isfile(mask)"
  else if ¬(dim < 100) then Except.error "assert 0 <= dim < 100"
  else if ¬(1/2 ≤ t_r ∧ t_r < 10) then Except.error "assert 0.5 <= t_r < 10"
  else if !melodicOk then Except.error "assert melodic_dir is None or isdir(melodic_dir)"
  else if !affmatOk then Except.error "assert affmat is None or isfile(affmat)"
  else if !warpOk then Except.error "assert warp is None or isfile(warp)"
  else if !mcOk then Except.error "assert isfile(mc)"
  else if ¬(denoise_type ∈ ["none", "aggr", "nonaggr", "both"]) then
    Except.error "assert denoise_type in list"
  else
    Except.ok ([AromaStep.icaStep, AromaStep.registerStep, AromaStep.spatialStep,
      AromaStep.temporalStep, AromaStep.frequencyStep, AromaStep.classifyStep] ++
      denoisePhase denoise_type motion_ic_indices ++
      (if verbose then [AromaStep.saveStep] else []))

/-! ### Classification report (`save_classification`, src/aroma.py:465-518) -/

/-- Python's built-in `max` on a list of naturals: raises `ValueError` on an empty
sequence, otherwise returns the maximum. -/
def pyMax : List ℕ → Except String ℕ
  | [] => Except.error "ValueError: max() arg is an empty sequence"
  | x :: xs => Except.ok (xs.foldl Nat.max x)

/-- The content of `classified_motion_ICs.txt` as written by `save_classification`
(src/aroma.py:501-503): the 1-based indices joined by commas on one printed line when
the set is non-empty, nothing at all (an empty file) otherwise. -/
def motionICsFileContent (motion_ic_indices : List ℕ) : String :=
  if motion_ic_indices.length > 0 then
    String.intercalate "," (motion_ic_indices.map (fun idx => toString (idx + 1))) ++ "\n"
  else ""

/-- `save_classification` (src/aroma.py:465-518), modelling the `assert` on line 494
(whose evaluation of `max(motion_ic_indices)` raises on an empty list) and the text
written to `classified_motion_ICs.txt`; the other two report files are per-component
tables not at issue in the claims. -/
def save_classification (max_rp_correl edge_fraction hfc csf_fraction : List ℚ)
    (motion_ic_indices : List ℕ) : Except String String :=
  match pyMax motion_ic_indices with
  | Except.error e => Except.error e
  | Except.ok m =>
    if m < max_rp_correl.length ∧ max_rp_correl.length = edge_fraction.length ∧
        edge_fraction.length = hfc.length ∧ hfc.length = csf_fraction.length then
      Except.ok (motionICsFileContent motion_ic_indices)
    else Except.error "AssertionError"

/-! ### Temporal feature (`feature_time_series`, src/aroma.py:273-334) -/

/-- Python 3's `round` (banker's rounding, half to even) followed by `int(...)`. -/
def pyRound (q : ℚ) : ℤ :=
  let n := ⌊q⌋
  let f := q - (n : ℚ)
  if f < 1 / 2 then n else if 1 / 2 < f then n + 1 else if 2 ∣ n then n else n + 1

/-- `nrows_to_choose = int(round(0.9 * nmixrows))` (src/aroma.py:318). -/
def nrowsToChoose (nmixrows : ℕ) : ℕ := (pyRound ((0.9 : ℚ) * nmixrows)).toNat

/-- Modelled from the spec: the Python standard library `random` module used by
`feature_time_series` is external to this repository; its global Mersenne-Twister
state is modelled as a natural number stepped by a linear congruential rule. -/
def lcg (s : ℕ) : ℕ := (1103515245 * s + 12345) % 2147483648

/-- Modelled from the spec: one draw without replacement — pick an element of the
pool from the stepped generator state and remove it. -/
def drawOne (g : ℕ) (pool : List ℕ) : ℕ × List ℕ × ℕ :=
  let g2 := lcg g
  let k := g2 % pool.length
  (pool.getD k 0, pool.eraseIdx k, g2)

/-- Modelled from the spec: `random.sample(population, k)` — `k` distinct draws
without replacement from the pool, threading the generator state. -/
def sampleDraw : ℕ → List ℕ → ℕ → List ℕ × ℕ
  | 0, _, g => ([], g)
  | Nat.succ n, pool, g =>
    let r := drawOne g pool
    let rest := sampleDraw n r.2.1 r.2.2
    (r.1 :: rest.1, rest.2)

/-- Modelled from the spec: the row subsets drawn by the `nsplits` iterations of the
trial loop (src/aroma.py:321-323), each a `random.sample(range(nmixrows), k)`. -/
def genSamples : ℕ → ℕ → ℕ → ℕ → List (List ℕ) × ℕ
  | 0, _, _, g => ([], g)
  | Nat.succ m, n, k, g =>
    let s := sampleDraw k (List.range n) g
    let rest := genSamples m n k s.2
    (s.1 :: rest.1, rest.2)

noncomputable section

/-- `np.mean` of a list of reals (0 for the empty list, as 0/0 = 0 in `ℝ`). -/
def mean (xs : List ℝ) : ℝ := xs.sum / xs.length

/-- Deviations from the mean. -/
def demean (xs : List ℝ) : List ℝ := xs.map (fun v => v - mean xs)

/-- Sum of pairwise products (dot product over the common prefix). -/
def dotSum (a b : List ℝ) : ℝ := (List.zipWith (· * ·) a b).sum

/-- Pearson correlation of two samples as computed inside `np.corrcoef`: centred dot
product over the square root of the product of centred square sums. -/
def pearson (a b : List ℝ) : ℝ :=
  dotSum (demean a) (demean b) /
    Real.sqrt (dotSum (demean a) (demean a) * dotSum (demean b) (demean b))

/-- `cross_correlation` (src/aroma.py:108-114): the cross block of `np.corrcoef`
between the columns of `a` and the columns of `b`. -/
def cross_correlation (a b : List (List ℝ)) : List (List ℝ) :=
  (List.range (ncols a)).map (fun i =>
    (List.range (ncols b)).map (fun j => pearson (colOf a i) (colOf b j)))

/-- A row of `n` zeros (`np.zeros(n)`). -/
def zerosRow (n : ℕ) : List ℝ := List.replicate n 0

/-- `np.diff(m, axis=0)`: successive row differences. -/
def diffRows (m : List (List ℝ)) : List (List ℝ) :=
  List.zipWith (fun r2 r1 => List.zipWith (fun x y => x - y) r2 r1) m.tail m

/-- `np.hstack` of two matrices: rows concatenated pairwise. -/
def hstack2 {α : Type} (a b : List (List α)) : List (List α) :=
  List.zipWith (fun r1 r2 => r1 ++ r2) a b

/-- `rp_derivs = np.vstack((np.zeros(nparams), np.diff(rparams, axis=0)))`
(src/aroma.py:300-303). -/
def rpDerivs (rparams : List (List ℝ)) : List (List ℝ) :=
  zerosRow (ncols rparams) :: diffRows rparams

/-- `rp12 = np.hstack((rparams, rp_derivs))` (src/aroma.py:304). -/
def rp12 (rparams : List (List ℝ)) : List (List ℝ) :=
  hstack2 rparams (rpDerivs rparams)

/-- `rp12_1fw = np.vstack((np.zeros(2*nparams), rp12[:-1]))` (src/aroma.py:305-308). -/
def rp12fw (rparams : List (List ℝ)) : List (List ℝ) :=
  zerosRow (2 * ncols rparams) :: (rp12 rparams).dropLast

/-- `rp12_1bw = np.vstack((rp12[1:], np.zeros(2*nparams)))` (src/aroma.py:309-312). -/
def rp12bw (rparams : List (List ℝ)) : List (List ℝ) :=
  (rp12 rparams).tail ++ [zerosRow (2 * ncols rparams)]

/-- `rp_model = np.hstack((rp12, rp12_1fw, rp12_1bw))` (src/aroma.py:313). -/
def rpModel (rparams : List (List ℝ)) : List (List ℝ) :=
  hstack2 (hstack2 (rp12 rparams) (rp12fw rparams)) (rp12bw rparams)

/-- `m[chosen_rows]`: fancy-indexed row selection. -/
def selectRows (m : List (List ℝ)) (rows : List ℕ) : List (List ℝ) :=
  rows.map (fun i => m.getD i [])

/-- Row selection applied to a single time course. -/
def selectIdx (xs : List ℝ) (rows : List ℕ) : List ℝ :=
  rows.map (fun i => xs.getD i 0)

/-- Elementwise square of a matrix (`m ** 2`). -/
def squareMat (m : List (List ℝ)) : List (List ℝ) :=
  m.map (List.map (fun v => v * v))

/-- `np.abs(xs).max()` (0 for an empty list; all uses are on non-empty lists of
absolute values). -/
def maxAbs (xs : List ℝ) : ℝ := (xs.map (fun v => |v|)).foldr max 0

/-- `correl_both = np.hstack((correl_squared, correl_nonsquared))`
(src/aroma.py:325-328) for one trial's chosen rows. -/
def trialCorrels (mix rpm : List (List ℝ)) (rows : List ℕ) : List (List ℝ) :=
  hstack2
    (cross_correlation (squareMat (selectRows mix rows)) (squareMat (selectRows rpm rows)))
    (cross_correlation (selectRows mix rows) (selectRows rpm rows))

/-- `max_correls[i] = np.abs(correl_both).max(axis=1)` (src/aroma.py:331). -/
def trialRow (mix rpm : List (List ℝ)) (rows : List ℕ) : List ℝ :=
  (trialCorrels mix rpm rows).map maxAbs

/-- `feature_time_series` (src/aroma.py:273-334) with the random subsampling made
explicit: `samples` is the list of row subsets drawn by the trial loop; the feature
score per component is the mean over trials of the per-trial maxima. -/
def featureTimeSeriesWith (mix rparams : List (List ℝ)) (samples : List (List ℕ)) :
    List ℝ :=
  let max_correls := samples.map (trialRow mix (rpModel rparams))
  (List.range (ncols mix)).map (fun c => mean (max_correls.map (fun tr => tr.getD c 0)))

/-- `feature_time_series` (src/aroma.py:273-334): when a seed is supplied,
`random.seed(seed)` resets the global generator state, otherwise the incoming global
state is used; `nsplits = 1000` subsets of `int(round(0.9 * nmixrows))` rows are then
drawn and the per-trial maxima are averaged. -/
def feature_time_series (mix rparams : List (List ℝ)) (seed : Option ℕ) (rngState : ℕ) :
    List ℝ :=
  let g0 := match seed with
    | some s => s
    | none => rngState
  featureTimeSeriesWith mix rparams
    (genSamples 1000 mix.length (nrowsToChoose mix.length) g0).1

end

/-! ### Claim-side description of the temporal feature (spec §4.3) -/

/-- Entry `(t, j)` of the claim's 12-column combination: the six motion parameters
followed by their zero-padded first differences. -/
noncomputable def claimRp12Entry (rparams : List (List ℝ)) (t j : ℕ) : ℝ :=
  if j < 6 then entryOf rparams t j
  else if t = 0 then 0
  else entryOf rparams t (j - 6) - entryOf rparams (t - 1) (j - 6)

/-- Entry `(t, j)` of the claim's 36-column motion model: the 12-column combination,
its one-sample forward shift and its one-sample backward shift, edge rows zero-padded. -/
noncomputable def claimModelEntry (rparams : List (List ℝ)) (t j : ℕ) : ℝ :=
  if j < 12 then claimRp12Entry rparams t j
  else if j < 24 then (if t = 0 then 0 else claimRp12Entry rparams (t - 1) (j - 12))
  else if t + 1 < rparams.length then claimRp12Entry rparams (t + 1) (j - 24) else 0

/-- Column `j` of the claim's motion model, as a `T`-long time course. -/
noncomputable def claimModelCol (rparams : List (List ℝ)) (j : ℕ) : List ℝ :=
  (List.range rparams.length).map (fun t => claimModelEntry rparams t j)

/-- The claim's per-trial value for component `c`: the maximum absolute correlation
across all 72 columns of the concatenated squared and non-squared correlations of the
component's (squared and raw) time course against the 36 motion-model columns, all
restricted to the drawn rows. -/
noncomputable def claimTrial (mix rparams : List (List ℝ)) (c : ℕ) (rows : List ℕ) : ℝ :=
  maxAbs
    ((List.range 36).map (fun j =>
        pearson (selectIdx ((colOf mix c).map (fun v => v * v)) rows)
          (selectIdx ((claimModelCol rparams j).map (fun v => v * v)) rows)) ++
     (List.range 36).map (fun j =>
        pearson (selectIdx (colOf mix c) rows) (selectIdx (claimModelCol rparams j) rows)))

/-- The claim's description of the whole temporal feature: per component, the mean
over the trials of the per-trial maximum. -/
noncomputable def claimTemporalFeature (mix rparams : List (List ℝ))
    (samples : List (List ℕ)) : List ℝ :=
  (List.range (ncols mix)).map (fun c => mean (samples.map (claimTrial mix rparams c)))

/-! ### Shared list-indexing lemmas -/

/-- `getD` of a `zipWith`, at an index valid for both lists. -/
theorem getD_zipWith {α : Type} [Zero α] (f : α → α → α) (a b : List α) (i : ℕ)
    (ha : i < a.length) (hb : i < b.length) :
    (List.zipWith f a b).getD i 0 = f (a.getD i 0) (b.getD i 0) := by
  simp [List.getD_eq_getElem?_getD, List.getElem?_zipWith', List.getElem?_eq_getElem, ha, hb]

/-- `getD` of a map over `List.range`. -/
theorem getD_map_range {α : Type} [Zero α] (f : ℕ → α) (n i : ℕ) :
    ((List.range n).map f).getD i 0 = if i < n then f i else 0 := by
  rcases Nat.lt_or_ge i n with h | h
  · simp [List.getD_eq_getElem?_getD, List.getElem?_map, List.getElem?_range h, h]
  · rw [List.getD_eq_getElem?_getD, List.getElem?_eq_none (by simpa using h)]
    simp [Nat.not_lt.mpr h]

/-- `getD` of a mapped list, provided the function sends the default to the default. -/
theorem getD_map_default {α β : Type} (f : α → β) (l : List α) (i : ℕ) (da : α) (db : β)
    (hf : f da = db) : (l.map f).getD i db = f (l.getD i da) := by
  rcases Nat.lt_or_ge i l.length with h | h
  · simp [List.getD_eq_getElem?_getD, List.getElem?_map, List.getElem?_eq_getElem, h]
  · rw [List.getD_eq_getElem?_getD, List.getElem?_eq_none (by simpa using h),
      List.getD_eq_getElem?_getD, List.getElem?_eq_none h]
    simp [hf]

/-- The value of the classifier's projection at a valid index. -/
theorem projection_getD (r e : List ℚ) (i : ℕ) (hr : i < r.length) (he : i < e.length) :
    (projection r e).getD i 0 =
      -19.9751070082159 + (r.getD i 0 * 9.95127547670627 + e.getD i 0 * 24.8333160239175) := by
  rw [projection, getD_zipWith _ _ _ _ hr he]
  norm_num [hyperplane]

/-! ### Index lemmas for the motion-model construction -/

theorem getD_zipWith_lt {α β γ : Type} (f : α → β → γ) (a : List α) (b : List β) (i : ℕ)
    (ha : i < a.length) (hb : i < b.length) (da : α) (db : β) (dc : γ) :
    (List.zipWith f a b).getD i dc = f (a.getD i da) (b.getD i db) := by
  simp [List.getD_eq_getElem?_getD, List.getElem?_zipWith', List.getElem?_eq_getElem, ha, hb]

theorem getD_mem_of_lt {α : Type} (l : List α) (n : ℕ) (d : α) (h : n < l.length) :
    l.getD n d ∈ l := by
  rw [List.getD_eq_getElem?_getD, List.getElem?_eq_getElem h]
  simp

theorem getD_tail {α : Type} (l : List α) (n : ℕ) (d : α) :
    l.tail.getD n d = l.getD (n + 1) d := by
  rw [List.getD_eq_getElem?_getD, List.getElem?_tail, List.getD_eq_getElem?_getD]

theorem getD_dropLast_lt {α : Type} (l : List α) (n : ℕ) (d : α) (h : n < l.length - 1) :
    l.dropLast.getD n d = l.getD n d := by
  rw [List.getD_eq_getElem?_getD, List.getElem?_dropLast, if_pos h,
    List.getD_eq_getElem?_getD]

theorem getD_zerosRow (n i : ℕ) : (zerosRow n).getD i 0 = 0 := by
  rw [zerosRow, List.getD_eq_getElem?_getD, List.getElem?_replicate]
  split <;> rfl

section ModelRefinement

variable (rparams : List (List ℝ))

theorem length_rpDerivs_ge : rparams.length ≤ (rpDerivs rparams).length := by
  cases rparams with
  | nil => simp [rpDerivs]
  | cons r rs => simp [rpDerivs, diffRows, List.length_zipWith]

theorem length_rp12 : (rp12 rparams).length = rparams.length := by
  cases rparams with
  | nil => simp [rp12, hstack2]
  | cons r rs =>
    simp only [rp12, hstack2, List.length_zipWith, rpDerivs, diffRows, List.tail_cons,
      List.length_cons, List.length_zipWith]
    omega

theorem length_rp12fw : (rp12fw rparams).length = max 1 rparams.length := by
  simp only [rp12fw, List.length_cons, List.length_dropLast, length_rp12]
  omega

theorem length_rp12bw : (rp12bw rparams).length = max 1 rparams.length := by
  simp only [rp12bw, List.length_append, List.length_tail, length_rp12,
    List.length_singleton]
  omega

theorem ncols_of_rect (hrect : ∀ row ∈ rparams, row.length = 6)
    (hT : 0 < rparams.length) : ncols rparams = 6 := by
  cases rparams with
  | nil => simp at hT
  | cons r rs => exact hrect r (List.mem_cons_self _ _)

theorem rowlen_of_rect (hrect : ∀ row ∈ rparams, row.length = 6) (t : ℕ)
    (ht : t < rparams.length) : (rparams.getD t []).length = 6 :=
  hrect _ (getD_mem_of_lt _ _ _ ht)

theorem rpDerivs_getD_succ (u : ℕ) (hu : u + 1 < rparams.length) :
    (rpDerivs rparams).getD (u + 1) [] =
      List.zipWith (fun x y => x - y) (rparams.getD (u + 1) []) (rparams.getD u []) := by
  rw [rpDerivs, List.getD_cons_succ, diffRows,
    getD_zipWith_lt _ _ _ u (by simp [List.length_tail]; omega) (by omega) [] [] [],
    getD_tail]

theorem rpDerivs_row_len (hrect : ∀ row ∈ rparams, row.length = 6) (t : ℕ)
    (ht : t < rparams.length) : ((rpDerivs rparams).getD t []).length = 6 := by
  cases t with
  | zero =>
    rw [rpDerivs, List.getD_cons_zero, zerosRow, List.length_replicate]
    exact ncols_of_rect rparams hrect (by omega)
  | succ u =>
    rw [rpDerivs_getD_succ rparams u ht, List.length_zipWith,
      rowlen_of_rect rparams hrect _ ht, rowlen_of_rect rparams hrect u (by omega)]
    exact Nat.min_self 6

theorem rp12_getD (t : ℕ) (ht : t < rparams.length) :
    (rp12 rparams).getD t [] = rparams.getD t [] ++ (rpDerivs rparams).getD t [] := by
  rw [rp12, hstack2, getD_zipWith_lt _ _ _ t ht
    (lt_of_lt_of_le ht (length_rpDerivs_ge rparams)) [] [] []]

theorem rp12_row_len (hrect : ∀ row ∈ rparams, row.length = 6) (t : ℕ)
    (ht : t < rparams.length) : ((rp12 rparams).getD t []).length = 12 := by
  rw [rp12_getD rparams t ht, List.length_append, rowlen_of_rect rparams hrect t ht,
    rpDerivs_row_len rparams hrect t ht]

theorem rp12_entry (hrect : ∀ row ∈ rparams, row.length = 6) (t j : ℕ)
    (ht : t < rparams.length) (hj : j < 12) :
    entryOf (rp12 rparams) t j = claimRp12Entry rparams t j := by
  rw [entryOf, rp12_getD rparams t ht, claimRp12Entry]
  rcases Nat.lt_or_ge j 6 with hj6 | hj6
  · rw [List.getD_append _ _ _ _ (by rw [rowlen_of_rect rparams hrect t ht]; omega),
      if_pos hj6, entryOf]
  · rw [List.getD_append_right _ _ _ _ (by rw [rowlen_of_rect rparams hrect t ht]; omega),
      rowlen_of_rect rparams hrect t ht, if_neg (by omega)]
    cases t with
    | zero => rw [rpDerivs, List.getD_cons_zero, getD_zerosRow, if_pos rfl]
    | succ u =>
      rw [rpDerivs_getD_succ rparams u ht, if_neg (Nat.succ_ne_zero u),
        getD_zipWith_lt _ _ _ (j - 6)
          (by rw [rowlen_of_rect rparams hrect _ ht]; omega)
          (by rw [rowlen_of_rect rparams hrect u (by omega)]; omega) 0 0 0,
        entryOf, entryOf, Nat.add_sub_cancel]

theorem rp12fw_getD_zero : (rp12fw rparams).getD 0 [] = zerosRow (2 * ncols rparams) :=
  rfl

theorem rp12fw_getD_succ (u : ℕ) (hu : u + 1 < rparams.length) :
    (rp12fw rparams).getD (u + 1) [] = (rp12 rparams).getD u [] := by
  rw [rp12fw, List.getD_cons_succ, getD_dropLast_lt _ _ _ (by rw [length_rp12]; omega)]

theorem rp12bw_getD (t : ℕ) (ht : t < rparams.length) :
    (rp12bw rparams).getD t [] =
      if t + 1 < rparams.length then (rp12 rparams).getD (t + 1) []
      else zerosRow (2 * ncols rparams) := by
  rw [rp12bw]
  rcases Nat.lt_or_ge (t + 1) rparams.length with h | h
  · rw [List.getD_append _ _ _ _ (by rw [List.length_tail, length_rp12]; omega),
      getD_tail, if_pos h]
  · have hteq : t = rparams.length - 1 := by omega
    rw [List.getD_append_right _ _ _ _ (by rw [List.length_tail, length_rp12]; omega),
      List.length_tail, length_rp12, if_neg (by omega), hteq]
    have : rparams.length - 1 - (rparams.length - 1) = 0 := by omega
    rw [this, List.getD_cons_zero]

theorem rp12fw_row_len (hrect : ∀ row ∈ rparams, row.length = 6) (t : ℕ)
    (ht : t < rparams.length) : ((rp12fw rparams).getD t []).length = 12 := by
  cases t with
  | zero =>
    rw [rp12fw_getD_zero, zerosRow, List.length_replicate,
      ncols_of_rect rparams hrect (by omega)]
  | succ u =>
    rw [rp12fw_getD_succ rparams u ht, rp12_row_len rparams hrect u (by omega)]

theorem rp12bw_row_len (hrect : ∀ row ∈ rparams, row.length = 6) (t : ℕ)
    (ht : t < rparams.length) : ((rp12bw rparams).getD t []).length = 12 := by
  rw [rp12bw_getD rparams t ht]
  split
  · exact rp12_row_len rparams hrect _ (by omega)
  · rw [zerosRow, List.length_replicate, ncols_of_rect rparams hrect (by omega)]

theorem rpModel_getD (_hrect : ∀ row ∈ rparams, row.length = 6) (t : ℕ)
    (ht : t < rparams.length) :
    (rpModel rparams).getD t [] =
      ((rp12 rparams).getD t [] ++ (rp12fw rparams).getD t []) ++
        (rp12bw rparams).getD t [] := by
  rw [rpModel, hstack2, hstack2,
    getD_zipWith_lt _ _ _ t (by rw [List.length_zipWith, length_rp12, length_rp12fw]; omega)
      (by rw [length_rp12bw]; omega) [] [] [],
    getD_zipWith_lt _ _ _ t (by rw [length_rp12]; omega) (by rw [length_rp12fw]; omega)
      [] [] []]

theorem rpModel_row_len (hrect : ∀ row ∈ rparams, row.length = 6) (t : ℕ)
    (ht : t < rparams.length) : ((rpModel rparams).getD t []).length = 36 := by
  rw [rpModel_getD rparams hrect t ht, List.length_append, List.length_append,
    rp12_row_len rparams hrect t ht, rp12fw_row_len rparams hrect t ht,
    rp12bw_row_len rparams hrect t ht]

theorem rpModel_entry (hrect : ∀ row ∈ rparams, row.length = 6) (t j : ℕ)
    (ht : t < rparams.length) (hj : j < 36) :
    entryOf (rpModel rparams) t j = claimModelEntry rparams t j := by
  have h12 := rp12_row_len rparams hrect t ht
  have hfw := rp12fw_row_len rparams hrect t ht
  rw [entryOf, rpModel_getD rparams hrect t ht, claimModelEntry]
  rcases Nat.lt_or_ge j 24 with hj24 | hj24
  · rw [List.getD_append _ _ _ _ (by rw [List.length_append, h12, hfw]; omega)]
    rcases Nat.lt_or_ge j 12 with hj12 | hj12
    · rw [List.getD_append _ _ _ _ (by omega), if_pos hj12, ← entryOf,
        rp12_entry rparams hrect t j ht hj12]
    · rw [List.getD_append_right _ _ _ _ (by omega), h12, if_neg (by omega),
        if_pos hj24]
      cases t with
      | zero => rw [rp12fw_getD_zero, getD_zerosRow, if_pos rfl]
      | succ u =>
        rw [rp12fw_getD_succ rparams u ht, if_neg (Nat.succ_ne_zero u), ← entryOf,
          rp12_entry rparams hrect u (j - 12) (by omega) (by omega),
          Nat.add_sub_cancel]
  · rw [List.getD_append_right _ _ _ _ (by rw [List.length_append, h12, hfw]; omega),
      List.length_append, h12, hfw, if_neg (by omega), if_neg (by omega)]
    have hsub : j - (12 + 12) = j - 24 := by omega
    rw [hsub, rp12bw_getD rparams t ht]
    split
    · rw [← entryOf, rp12_entry rparams hrect (t + 1) (j - 24) (by omega) (by omega)]
    · rw [getD_zerosRow]

end ModelRefinement

/-! ### Column-level refinement of the temporal feature -/

theorem colOf_selectRows (m : List (List ℝ)) (rows : List ℕ) (c : ℕ) :
    colOf (selectRows m rows) c = selectIdx (colOf m c) rows := by
  simp only [colOf, selectRows, selectIdx, List.map_map]
  apply List.map_congr_left
  intro i _
  simp only [Function.comp_apply]
  exact (getD_map_default (fun r => List.getD r c 0) m i [] 0 (by simp)).symm

theorem colOf_squareMat (m : List (List ℝ)) (c : ℕ) :
    colOf (squareMat m) c = (colOf m c).map (fun v => v * v) := by
  simp only [colOf, squareMat, List.map_map]
  apply List.map_congr_left
  intro r _
  simp only [Function.comp_apply]
  exact getD_map_default (fun v => v * v) r c 0 0 (by norm_num)

theorem selectIdx_map_sq (xs : List ℝ) (rows : List ℕ) :
    selectIdx (xs.map (fun v => v * v)) rows =
      (selectIdx xs rows).map (fun v => v * v) := by
  simp only [selectIdx, List.map_map]
  apply List.map_congr_left
  intro i _
  simp only [Function.comp_apply]
  exact getD_map_default (fun v => v * v) xs i 0 0 (by norm_num)

theorem zipWith_map_same {α β γ δ : Type} (f : β → γ → δ) (g : α → β) (h : α → γ) :
    ∀ l : List α, List.zipWith f (l.map g) (l.map h) = l.map (fun x => f (g x) (h x))
  | [] => rfl
  | x :: xs => by
    simp only [List.map_cons, List.zipWith_cons_cons, zipWith_map_same f g h xs]

/-- The model column restricted to the drawn rows equals the claim's description. -/
theorem colOf_selectRows_model (rparams : List (List ℝ))
    (hrect : ∀ row ∈ rparams, row.length = 6) (rows : List ℕ)
    (hrows : ∀ i ∈ rows, i < rparams.length) (j : ℕ) (hj : j < 36) :
    colOf (selectRows (rpModel rparams) rows) j =
      selectIdx (claimModelCol rparams j) rows := by
  rw [colOf_selectRows]
  simp only [selectIdx]
  apply List.map_congr_left
  intro i hi
  have hiT := hrows i hi
  rw [colOf, getD_map_default (fun r => List.getD r j 0) _ i [] 0 (by simp), ← entryOf,
    claimModelCol, getD_map_range, if_pos hiT]
  exact rpModel_entry rparams hrect i j hiT hj

theorem ncols_squareMat (m : List (List ℝ)) : ncols (squareMat m) = ncols m := by
  cases m <;> simp [ncols, squareMat]

theorem ncols_selectRows (m : List (List ℝ)) (r0 : ℕ) (rest : List ℕ) :
    ncols (selectRows m (r0 :: rest)) = (m.getD r0 []).length := by
  simp [ncols, selectRows]

/-- One trial of the source equals, componentwise, the claim's per-trial value. -/
theorem trialRow_eq_claim (mix rparams : List (List ℝ))
    (hmixrect : ∀ row ∈ mix, row.length = ncols mix)
    (hrect : ∀ row ∈ rparams, row.length = 6)
    (hT : rparams.length = mix.length)
    (rows : List ℕ) (hne : rows ≠ []) (hrows : ∀ i ∈ rows, i < mix.length) :
    trialRow mix (rpModel rparams) rows =
      (List.range (ncols mix)).map (fun c => claimTrial mix rparams c rows) := by
  obtain ⟨r0, rest, rfl⟩ : ∃ r0 rest, rows = r0 :: rest := by
    cases rows with
    | nil => exact absurd rfl hne
    | cons a b => exact ⟨a, b, rfl⟩
  have hr0 : r0 < mix.length := hrows r0 (List.mem_cons_self _ _)
  have hrowsT : ∀ i ∈ r0 :: rest, i < rparams.length := fun i hi => by
    rw [hT]; exact hrows i hi
  have hA2 : ncols (squareMat (selectRows mix (r0 :: rest))) = ncols mix := by
    rw [ncols_squareMat, ncols_selectRows]
    exact hmixrect _ (getD_mem_of_lt _ _ _ hr0)
  have hA1 : ncols (selectRows mix (r0 :: rest)) = ncols mix := by
    rw [ncols_selectRows]
    exact hmixrect _ (getD_mem_of_lt _ _ _ hr0)
  have hB2 : ncols (squareMat (selectRows (rpModel rparams) (r0 :: rest))) = 36 := by
    rw [ncols_squareMat, ncols_selectRows]
    exact rpModel_row_len rparams hrect r0 (hT ▸ hr0)
  have hB1 : ncols (selectRows (rpModel rparams) (r0 :: rest)) = 36 := by
    rw [ncols_selectRows]
    exact rpModel_row_len rparams hrect r0 (hT ▸ hr0)
  rw [trialRow, trialCorrels, cross_correlation, cross_correlation, hA2, hB2, hA1, hB1,
    hstack2, zipWith_map_same, List.map_map]
  apply List.map_congr_left
  intro c _hc
  simp only [Function.comp_apply]
  rw [claimTrial]
  congr 1
  congr 1
  · apply List.map_congr_left
    intro j hj
    have hj36 : j < 36 := List.mem_range.mp hj
    rw [colOf_squareMat, colOf_selectRows, ← selectIdx_map_sq,
      colOf_squareMat, colOf_selectRows_model rparams hrect _ hrowsT j hj36,
      ← selectIdx_map_sq]
  · apply List.map_congr_left
    intro j hj
    have hj36 : j < 36 := List.mem_range.mp hj
    rw [colOf_selectRows, colOf_selectRows_model rparams hrect _ hrowsT j hj36]

/-- The abstracted temporal feature equals the claim's description. -/
theorem featureTimeSeriesWith_eq_claim (mix rparams : List (List ℝ))
    (samples : List (List ℕ))
    (hmixrect : ∀ row ∈ mix, row.length = ncols mix)
    (hrect : ∀ row ∈ rparams, row.length = 6)
    (hT : rparams.length = mix.length)
    (hsvalid : ∀ s ∈ samples, s ≠ [] ∧ ∀ i ∈ s, i < mix.length) :
    featureTimeSeriesWith mix rparams samples =
      claimTemporalFeature mix rparams samples := by
  simp only [featureTimeSeriesWith, claimTemporalFeature]
  apply List.map_congr_left
  intro c hc
  have hcN : c < ncols mix := List.mem_range.mp hc
  congr 1
  rw [List.map_map]
  apply List.map_congr_left
  intro rows hmem
  simp only [Function.comp_apply]
  rw [trialRow_eq_claim mix rparams hmixrect hrect hT rows (hsvalid rows hmem).1
    (hsvalid rows hmem).2, getD_map_range, if_pos hcN]

/-! ### First-minimum characterisation of `np.argmin` and the left-to-right scan -/

/-- `r` is the first index achieving the minimum of `xs`. -/
def IsFirstMin (xs : List ℚ) (r : ℕ) : Prop :=
  r < xs.length ∧ (∀ k, k < xs.length → xs.getD r 0 ≤ xs.getD k 0) ∧
    ∀ k, k < r → xs.getD r 0 < xs.getD k 0

theorem isFirstMin_unique {xs : List ℚ} {r s : ℕ} (hr : IsFirstMin xs r)
    (hs : IsFirstMin xs s) : r = s := by
  by_contra hne
  rcases Nat.lt_or_ge r s with h | h
  · exact absurd (lt_of_le_of_lt (hr.2.1 s hs.1) (hs.2.2 r h)) (lt_irrefl _)
  · exact absurd (lt_of_le_of_lt (hs.2.1 r hr.1) (hr.2.2 s (lt_of_le_of_ne h (Ne.symm hne))))
      (lt_irrefl _)

theorem listMin_mem (x : ℚ) (xs : List ℚ) : listMin x xs ∈ x :: xs := by
  induction xs generalizing x with
  | nil => simp [listMin]
  | cons y ys ih =>
    rw [listMin, List.foldl_cons]
    rcases List.mem_cons.mp (ih (min x y)) with h | h
    · rcases min_choice x y with hxy | hxy <;> rw [listMin] at h <;> rw [h, hxy] <;> simp
    · exact List.mem_cons_of_mem _ (List.mem_cons_of_mem _ h)

theorem listMin_le (x : ℚ) (xs : List ℚ) : ∀ y ∈ x :: xs, listMin x xs ≤ y := by
  induction xs generalizing x with
  | nil => intro y hy; rw [List.mem_singleton] at hy; simp [listMin, hy]
  | cons z zs ih =>
    intro y hy
    rw [listMin, List.foldl_cons]
    have ih' := ih (min x z)
    rw [listMin] at ih'
    rcases List.mem_cons.mp hy with rfl | hy'
    · exact le_trans (ih' _ (List.mem_cons_self _ _)) (min_le_left _ _)
    · rcases List.mem_cons.mp hy' with rfl | hy2
      · exact le_trans (ih' _ (List.mem_cons_self _ _)) (min_le_right _ _)
      · exact ih' y (List.mem_cons_of_mem _ hy2)

theorem npArgmin_isFirstMin (x : ℚ) (xs : List ℚ) :
    IsFirstMin (x :: xs) (npArgmin (x :: xs)) := by
  set l := x :: xs with hl
  set m := listMin x xs with hm
  have hmem : m ∈ l := listMin_mem x xs
  have hle : ∀ y ∈ l, m ≤ y := listMin_le x xs
  have hlt : l.findIdx (fun v => decide (v = m)) < l.length :=
    List.findIdx_lt_length_of_exists ⟨m, hmem, by simp⟩
  have hval : l.getD (l.findIdx (fun v => decide (v = m))) 0 = m := by
    rw [List.getD_eq_getElem?_getD, List.getElem?_eq_getElem hlt]
    have := @List.findIdx_getElem _ (fun v => decide (v = m)) l hlt
    simpa using this
  have hunfold : npArgmin l = l.findIdx (fun v => decide (v = m)) := by
    rw [hl, npArgmin]
  rw [IsFirstMin, hunfold]
  refine ⟨hlt, fun k hk => ?_, fun k hk => ?_⟩
  · rw [hval, List.getD_eq_getElem?_getD, List.getElem?_eq_getElem hk]
    exact hle _ (List.getElem_mem hk)
  · have hkl : k < l.length := lt_trans hk hlt
    rw [hval, List.getD_eq_getElem?_getD, List.getElem?_eq_getElem hkl]
    have hne : l[k] ≠ m := by
      have hfalse := List.not_of_lt_findIdx hk
      simpa using hfalse
    exact lt_of_le_of_ne (hle _ (List.getElem_mem hkl)) (fun heq => hne heq.symm)

theorem argminScanAux_isFirstMin (t : List ℚ) :
    ∀ (pre : List ℚ) (best : ℕ) (bv : ℚ),
      best < pre.length → pre.getD best 0 = bv →
      (∀ k, k < pre.length → bv ≤ pre.getD k 0) →
      (∀ k, k < best → bv < pre.getD k 0) →
      IsFirstMin (pre ++ t) (argminScanAux t pre.length best bv) := by
  induction t with
  | nil =>
    intro pre best bv hb hval hmin hfirst
    rw [List.append_nil, argminScanAux]
    refine ⟨hb, fun k hk => ?_, fun k hk => ?_⟩
    · rw [hval]; exact hmin k hk
    · rw [hval]; exact hfirst k hk
  | cons y t ih =>
    intro pre best bv hb hval hmin hfirst
    rw [List.append_cons, argminScanAux]
    by_cases hy : y < bv
    · rw [if_pos hy]
      have hlen : (pre ++ [y]).length = pre.length + 1 := by simp
      have hres := ih (pre ++ [y]) pre.length y (by simp)
        (by rw [List.getD_append_right _ _ _ _ le_rfl, Nat.sub_self]; rfl)
        (fun k hk => by
          rcases Nat.lt_or_ge k pre.length with hkp | hkp
          · rw [List.getD_append _ _ _ _ hkp]
            exact le_of_lt (lt_of_lt_of_le hy (hmin k hkp))
          · have hkeq : k = pre.length := by omega
            rw [hkeq, List.getD_append_right _ _ _ _ le_rfl, Nat.sub_self]
            exact le_refl y)
        (fun k hk => by
          rw [List.getD_append _ _ _ _ hk]
          exact lt_of_lt_of_le hy (hmin k hk))
      rw [hlen] at hres
      exact hres
    · rw [if_neg hy]
      have hyge : bv ≤ y := not_lt.mp hy
      have hlen : (pre ++ [y]).length = pre.length + 1 := by simp
      have hres := ih (pre ++ [y]) best bv (by simp; omega)
        (by rw [List.getD_append _ _ _ _ hb]; exact hval)
        (fun k hk => by
          rcases Nat.lt_or_ge k pre.length with hkp | hkp
          · rw [List.getD_append _ _ _ _ hkp]
            exact hmin k hkp
          · have hkeq : k = pre.length := by omega
            rw [hkeq, List.getD_append_right _ _ _ _ le_rfl, Nat.sub_self]
            exact hyge)
        (fun k hk => by
          rw [List.getD_append _ _ _ _ (lt_trans hk hb)]
          exact hfirst k hk)
      rw [hlen] at hres
      exact hres

theorem argminScan_isFirstMin (x : ℚ) (xs : List ℚ) :
    IsFirstMin (x :: xs) (argminScan (x :: xs)) := by
  have hres := argminScanAux_isFirstMin xs [x] 0 x (by simp) (by simp)
    (fun k hk => by
      have hk0 : k = 0 := by simpa using Nat.lt_one_iff.mp (by simpa using hk)
      simp [hk0])
    (fun k hk => absurd hk (Nat.not_lt_zero k))
  simpa [argminScan] using hres

theorem argminScan_eq_npArgmin : ∀ xs : List ℚ, argminScan xs = npArgmin xs
  | [] => rfl
  | x :: xs => isFirstMin_unique (argminScan_isFirstMin x xs) (npArgmin_isFirstMin x xs)

theorem npArgmin_lt_length (x : ℚ) (xs : List ℚ) : npArgmin (x :: xs) < (x :: xs).length :=
  (npArgmin_isFirstMin x xs).1

/-- `getD` of a mapped list at a valid index. -/
theorem getD_map_lt {α β : Type} (f : α → β) (l : List α) (n : ℕ) (h : n < l.length)
    (d : β) (d' : α) : (l.map f).getD n d = f (l.getD n d') := by
  rw [List.getD_eq_getElem?_getD, List.getElem?_map, List.getElem?_eq_getElem h,
    List.getD_eq_getElem?_getD, List.getElem?_eq_getElem h]
  rfl

theorem npArgmin_lt_length_of_ne {l : List ℚ} (h : l ≠ []) : npArgmin l < l.length := by
  cases l with
  | nil => exact absurd rfl h
  | cons x xs => exact npArgmin_lt_length x xs

/-- The kept (frequency, row) pairs are exactly the above-0.01 row indices, each paired
with its frequency and its `ftmix` row. -/
theorem keptPairsOf_eq (ftmix : List (List ℚ)) (ny : ℚ) :
    keptPairsOf ftmix ny = (rowsAbove ny ftmix.length).map
      (fun i => (rowFrequency ny ftmix.length i, ftmix.getD i [])) := by
  have hzip : List.zip (frequenciesOf ny ftmix.length) ftmix =
      (List.range ftmix.length).map
        (fun i => (rowFrequency ny ftmix.length i, ftmix.getD i [])) := by
    apply List.ext_getElem?
    intro n
    rcases Nat.lt_or_ge n ftmix.length with hn | hn
    · rw [List.zip_eq_zipWith, List.getElem?_zipWith']
      simp only [frequenciesOf, List.getElem?_map, List.getElem?_range hn,
        List.getElem?_eq_getElem hn, Option.map_some', Option.bind_some]
      simp [List.getD_eq_getElem?_getD, List.getElem?_eq_getElem hn]
    · have hA : (frequenciesOf ny ftmix.length)[n]? = none :=
        List.getElem?_eq_none (by simpa [frequenciesOf] using hn)
      have hB : ((List.range ftmix.length).map
          (fun i => (rowFrequency ny ftmix.length i, ftmix.getD i [])))[n]? = none :=
        List.getElem?_eq_none (by simpa using hn)
      rw [List.zip_eq_zipWith, List.getElem?_zipWith', hA, hB]
      simp
  rw [keptPairsOf, hzip, List.filter_map]
  rfl

/-- With `0.5 < t_r < 10`, the Nyquist frequency lies strictly above 0.01 Hz. -/
theorem hundredth_lt_nyquistOf (t_r : ℚ) (h1 : 1 / 2 < t_r) (h2 : t_r < 10) :
    (0.01 : ℚ) < nyquistOf t_r := by
  have ht0 : (0 : ℚ) < t_r := lt_trans (by norm_num) h1
  rw [nyquistOf, div_div, lt_div_iff₀ (by positivity)]
  nlinarith

/-- The last row's frequency is exactly Nyquist. -/
theorem rowFrequency_last (ny : ℚ) (F : ℕ) (hF : 0 < F) :
    rowFrequency ny F (F - 1) = ny := by
  rw [rowFrequency]
  have hcast : ((F - 1 : ℕ) : ℚ) + 1 = (F : ℚ) := by
    rw [Nat.cast_sub hF]
    ring
  rw [hcast, mul_div_assoc, div_self (by exact_mod_cast hF.ne'), mul_one]

/-- The above-0.01 row set is non-empty: the last row always qualifies. -/
theorem rowsAbove_ne_nil (ny : ℚ) (F : ℕ) (hF : 0 < F) (hny : (0.01 : ℚ) < ny) :
    rowsAbove ny F ≠ [] := by
  intro hempty
  have hmem : F - 1 ∈ rowsAbove ny F := by
    rw [rowsAbove, List.mem_filter]
    refine ⟨List.mem_range.mpr (by omega), ?_⟩
    rw [rowFrequency_last ny F hF]
    exact decide_eq_true hny
  rw [hempty] at hmem
  exact List.not_mem_nil _ hmem

/-- `feature_frequency` agrees with the claim's per-component description. -/
theorem feature_frequency_eq_claim (ftmix : List (List ℚ)) (t_r : ℚ)
    (h1 : 1 / 2 < t_r) (h2 : t_r < 10) (hne : ftmix ≠ []) :
    feature_frequency ftmix t_r = (List.range (ncols ftmix)).map (hfcClaim ftmix t_r) := by
  have hF : 0 < ftmix.length := List.length_pos.mpr hne
  have ht0 : (0 : ℚ) < t_r := lt_trans (by norm_num) h1
  have hny001 : (0.01 : ℚ) < nyquistOf t_r := hundredth_lt_nyquistOf t_r h1 h2
  have hrowsne : rowsAbove (nyquistOf t_r) ftmix.length ≠ [] :=
    rowsAbove_ne_nil (nyquistOf t_r) ftmix.length hF hny001
  simp only [feature_frequency, keptPairsOf_eq, List.map_map]
  apply List.map_congr_left
  intro c _hc
  simp only [hfcClaim, Function.comp_def]
  rw [argminScan_eq_npArgmin]
  have hidx : npArgmin ((cumsumFractions
      ((rowsAbove (nyquistOf t_r) ftmix.length).map
        (fun i => (ftmix.getD i []).getD c 0))).map (fun x => (x - 0.5) ^ 2)) <
      (rowsAbove (nyquistOf t_r) ftmix.length).length := by
    have hlen : ((cumsumFractions
        ((rowsAbove (nyquistOf t_r) ftmix.length).map
          (fun i => (ftmix.getD i []).getD c 0))).map (fun x => (x - 0.5) ^ 2)).length =
        (rowsAbove (nyquistOf t_r) ftmix.length).length := by
      simp [cumsumFractions]
    rw [← hlen]
    apply npArgmin_lt_length_of_ne
    intro hLnil
    have hrowspos : 0 < (rowsAbove (nyquistOf t_r) ftmix.length).length :=
      List.length_pos.mpr hrowsne
    rw [hLnil] at hlen
    simp only [List.length_nil] at hlen
    omega
  rw [getD_map_lt _ _ _ hidx 0 0]

/-! ### Bounds lemmas for the feature scores -/

theorem zsum_nonneg (frame : List ℚ) : 0 ≤ zsum frame :=
  Finset.sum_nonneg fun _ _ => abs_nonneg _

theorem zsumMask_nonneg (frame : List ℚ) (mask : List Bool) : 0 ≤ zsumMask frame mask :=
  Finset.sum_nonneg fun _ _ => by
    split
    · exact abs_nonneg _
    · exact le_refl 0

/-- Three pairwise disjoint masks jointly capture at most the total absolute sum. -/
theorem zsumMask_three_le (frame : List ℚ) (m1 m2 m3 : List Bool)
    (hdisj : ∀ i : ℕ, ¬(m1.getD i false ∧ m2.getD i false) ∧
      ¬(m1.getD i false ∧ m3.getD i false) ∧ ¬(m2.getD i false ∧ m3.getD i false)) :
    zsumMask frame m1 + zsumMask frame m2 + zsumMask frame m3 ≤ zsum frame := by
  rw [zsumMask, zsumMask, zsumMask, zsum, ← Finset.sum_add_distrib,
    ← Finset.sum_add_distrib]
  apply Finset.sum_le_sum
  intro i _
  rcases hdisj i with ⟨h12, h13, h23⟩
  by_cases b1 : m1.getD i false = true <;> by_cases b2 : m2.getD i false = true <;>
    by_cases b3 : m3.getD i false = true
  · exact absurd ⟨b1, b2⟩ h12
  · exact absurd ⟨b1, b2⟩ h12
  · exact absurd ⟨b1, b3⟩ h13
  · simp only [b1, if_true, if_neg b2, if_neg b3, add_zero]
    exact le_refl _
  · exact absurd ⟨b2, b3⟩ h23
  · simp only [if_neg b1, b2, if_true, if_neg b3, zero_add, add_zero]
    exact le_refl _
  · simp only [if_neg b1, if_neg b2, b3, if_true, zero_add]
    exact le_refl _
  · simp only [if_neg b1, if_neg b2, if_neg b3, add_zero]
    exact abs_nonneg _

theorem zsumMask_le_zsum (frame : List ℚ) (mask : List Bool) :
    zsumMask frame mask ≤ zsum frame := by
  rw [zsumMask, zsum]
  apply Finset.sum_le_sum
  intro i _
  split
  · exact le_refl _
  · exact abs_nonneg _

/-- Both spatial fractions always lie in `[0,1]` when the three masks are pairwise
disjoint. -/
theorem feature_spatial_bounds (frames : List (List ℚ)) (csfMask edgeMask outMask : List Bool)
    (hdisj : ∀ i : ℕ, ¬(csfMask.getD i false ∧ edgeMask.getD i false) ∧
      ¬(csfMask.getD i false ∧ outMask.getD i false) ∧
      ¬(edgeMask.getD i false ∧ outMask.getD i false)) :
    (∀ x ∈ (feature_spatial frames csfMask edgeMask outMask).1, 0 ≤ x ∧ x ≤ 1) ∧
    (∀ x ∈ (feature_spatial frames csfMask edgeMask outMask).2, 0 ≤ x ∧ x ≤ 1) := by
  constructor
  · intro x hx
    have hx' : x ∈ edgeFraction (frames.map zsum)
        (frames.map fun f => zsumMask f csfMask) (frames.map fun f => zsumMask f edgeMask)
        (frames.map fun f => zsumMask f outMask) := hx
    rw [edgeFraction] at hx'
    obtain ⟨i, _, rfl⟩ := List.mem_map.mp hx'
    rw [getD_map_default zsum frames i [] 0 (by simp [zsum]),
      getD_map_default (fun f => zsumMask f csfMask) frames i [] 0 (by simp [zsumMask]),
      getD_map_default (fun f => zsumMask f edgeMask) frames i [] 0 (by simp [zsumMask]),
      getD_map_default (fun f => zsumMask f outMask) frames i [] 0 (by simp [zsumMask])]
    set F := frames.getD i []
    split
    · rename_i hlt
      have hsum := zsumMask_three_le F csfMask edgeMask outMask hdisj
      constructor
      · exact div_nonneg (add_nonneg (zsumMask_nonneg _ _) (zsumMask_nonneg _ _))
          (by linarith)
      · rw [div_le_one (by linarith)]
        linarith
    · exact ⟨le_refl 0, zero_le_one⟩
  · intro x hx
    have hx' : x ∈ csfFraction (frames.map zsum)
        (frames.map fun f => zsumMask f csfMask) := hx
    rw [csfFraction] at hx'
    obtain ⟨i, _, rfl⟩ := List.mem_map.mp hx'
    rw [getD_map_default zsum frames i [] 0 (by simp [zsum]),
      getD_map_default (fun f => zsumMask f csfMask) frames i [] 0 (by simp [zsumMask])]
    split
    · rename_i hlt
      constructor
      · exact div_nonneg (zsumMask_nonneg _ _) (by linarith [zsumMask_nonneg (frames.getD i []) csfMask])
      · rw [div_le_one (by linarith [zsumMask_nonneg (frames.getD i []) csfMask])]
        linarith
    · exact ⟨le_refl 0, zero_le_one⟩

theorem getD_mem_or {α : Type} (l : List α) (n : ℕ) (d : α) :
    l.getD n d ∈ l ∨ l.getD n d = d := by
  rcases Nat.lt_or_ge n l.length with h | h
  · exact Or.inl (getD_mem_of_lt _ _ _ h)
  · right
    rw [List.getD_eq_getElem?_getD, List.getElem?_eq_none h]
    rfl

/-- The claim-side frequency score of every component lies in `[0,1]`. -/
theorem hfcClaim_bounds (ftmix : List (List ℚ)) (t_r : ℚ) (c : ℕ)
    (h1 : 1 / 2 < t_r) (h2 : t_r < 10) (hne : ftmix ≠ []) :
    0 ≤ hfcClaim ftmix t_r c ∧ hfcClaim ftmix t_r c ≤ 1 := by
  have hF : 0 < ftmix.length := List.length_pos.mpr hne
  have hny : (0.01 : ℚ) < nyquistOf t_r := hundredth_lt_nyquistOf t_r h1 h2
  have hrowsne := rowsAbove_ne_nil (nyquistOf t_r) ftmix.length hF hny
  simp only [hfcClaim]
  set rows := rowsAbove (nyquistOf t_r) ftmix.length with hrowsdef
  set idx := argminScan ((cumsumFractions
    (rows.map fun i => (ftmix.getD i []).getD c 0)).map fun x => (x - 0.5) ^ 2) with hidxdef
  have hidxlt : idx < rows.length := by
    rw [hidxdef, argminScan_eq_npArgmin]
    have hlen : ((cumsumFractions (rows.map fun i => (ftmix.getD i []).getD c 0)).map
        fun x => (x - 0.5) ^ 2).length = rows.length := by
      simp [cumsumFractions]
    rw [← hlen]
    apply npArgmin_lt_length_of_ne
    intro hnil
    rw [hnil, List.length_nil] at hlen
    have := List.length_pos.mpr hrowsne
    omega
  have hr : rows.getD idx 0 ∈ rows := getD_mem_of_lt _ _ _ hidxlt
  rw [hrowsdef, rowsAbove, List.mem_filter, List.mem_range] at hr
  obtain ⟨hrF, hrfreq⟩ := hr
  have hfr : (0.01 : ℚ) < rowFrequency (nyquistOf t_r) ftmix.length (rows.getD idx 0) :=
    of_decide_eq_true hrfreq
  have hle : rowFrequency (nyquistOf t_r) ftmix.length (rows.getD idx 0) ≤ nyquistOf t_r := by
    rw [rowFrequency, mul_div_assoc]
    have hq : (((rows.getD idx 0 : ℕ) : ℚ) + 1) / (ftmix.length : ℚ) ≤ 1 := by
      rw [div_le_one (by exact_mod_cast hF)]
      exact_mod_cast Nat.succ_le_of_lt hrF
    exact mul_le_of_le_one_right (by linarith) hq
  rw [rescaleFreq]
  constructor
  · exact div_nonneg (by linarith) (by linarith)
  · rw [div_le_one (by linarith)]
    linarith

/-- Every entry of the frequency feature lies in `[0,1]`. -/
theorem feature_frequency_bounds (ftmix : List (List ℚ)) (t_r : ℚ)
    (h1 : 1 / 2 < t_r) (h2 : t_r < 10) (hne : ftmix ≠ []) :
    ∀ x ∈ feature_frequency ftmix t_r, 0 ≤ x ∧ x ≤ 1 := by
  intro x hx
  rw [feature_frequency_eq_claim ftmix t_r h1 h2 hne] at hx
  obtain ⟨c, _, rfl⟩ := List.mem_map.mp hx
  exact hfcClaim_bounds ftmix t_r c h1 h2 hne

theorem dotSum_eq_sum (a b : List ℝ) :
    dotSum a b = ∑ i ∈ Finset.range (min a.length b.length), a.getD i 0 * b.getD i 0 := by
  rw [dotSum]
  induction a generalizing b with
  | nil => simp
  | cons x xs ih =>
    cases b with
    | nil => simp
    | cons y ys =>
      rw [List.zipWith_cons_cons, List.sum_cons, ih ys, List.length_cons,
        List.length_cons, Nat.succ_min_succ, Finset.sum_range_succ']
      simp only [List.getD_cons_succ, List.getD_cons_zero]
      ring

theorem dotSum_self_nonneg (a : List ℝ) : 0 ≤ dotSum a a := by
  rw [dotSum_eq_sum]
  exact Finset.sum_nonneg fun i _ => mul_self_nonneg _

theorem sum_sq_prefix_le (w : List ℝ) (m : ℕ) (hm : m ≤ w.length) :
    ∑ i ∈ Finset.range m, w.getD i 0 ^ 2 ≤
      ∑ i ∈ Finset.range w.length, w.getD i 0 * w.getD i 0 := by
  have h1 : ∑ i ∈ Finset.range m, w.getD i 0 ^ 2 =
      ∑ i ∈ Finset.range m, w.getD i 0 * w.getD i 0 :=
    Finset.sum_congr rfl fun i _ => pow_two (w.getD i 0)
  rw [h1]
  exact Finset.sum_le_sum_of_subset_of_nonneg (Finset.range_subset.mpr hm)
    fun i _ _ => mul_self_nonneg _

/-- A Pearson correlation never exceeds 1 in absolute value (Cauchy-Schwarz; a zero
denominator yields 0 under the total division convention). -/
theorem abs_pearson_le_one (a b : List ℝ) : |pearson a b| ≤ 1 := by
  rw [pearson]
  set u := demean a
  set v := demean b
  rcases eq_or_ne (Real.sqrt (dotSum u u * dotSum v v)) 0 with h0 | h0
  · rw [h0, div_zero, abs_zero]
    exact zero_le_one
  · have hsqrtpos : 0 < Real.sqrt (dotSum u u * dotSum v v) :=
      lt_of_le_of_ne (Real.sqrt_nonneg _) (Ne.symm h0)
    rw [abs_div, abs_of_nonneg (Real.sqrt_nonneg _), div_le_one hsqrtpos]
    have hS2 : dotSum u v ^ 2 ≤ dotSum u u * dotSum v v := by
      rw [dotSum_eq_sum u v, dotSum_eq_sum u u, dotSum_eq_sum v v, Nat.min_self,
        Nat.min_self]
      have hCS := Finset.sum_mul_sq_le_sq_mul_sq (Finset.range (min u.length v.length))
        (fun i => u.getD i 0) (fun i => v.getD i 0)
      refine le_trans hCS (mul_le_mul ?_ ?_ (Finset.sum_nonneg fun i _ => sq_nonneg _)
        (Finset.sum_nonneg fun i _ => mul_self_nonneg _))
      · exact sum_sq_prefix_le u _ (min_le_left _ _)
      · exact sum_sq_prefix_le v _ (min_le_right _ _)
    calc |dotSum u v| = Real.sqrt (dotSum u v ^ 2) := (Real.sqrt_sq_eq_abs _).symm
      _ ≤ Real.sqrt (dotSum u u * dotSum v v) := Real.sqrt_le_sqrt hS2

theorem maxAbs_nonneg (xs : List ℝ) : 0 ≤ maxAbs xs := by
  rw [maxAbs]
  induction xs with
  | nil => exact le_refl 0
  | cons x t ih =>
    rw [List.map_cons, List.foldr_cons]
    exact le_max_of_le_right ih

theorem maxAbs_le_one (xs : List ℝ) (h : ∀ x ∈ xs, |x| ≤ 1) : maxAbs xs ≤ 1 := by
  rw [maxAbs]
  induction xs with
  | nil => exact zero_le_one
  | cons x t ih =>
    rw [List.map_cons, List.foldr_cons]
    refine max_le (h x (List.mem_cons_self _ _)) ?_
    exact ih fun y hy => h y (List.mem_cons_of_mem _ hy)

theorem mem_zipWith {α β γ : Type} {f : α → β → γ} :
    ∀ {as : List α} {bs : List β} {c : γ}, c ∈ List.zipWith f as bs →
      ∃ a ∈ as, ∃ b ∈ bs, c = f a b := by
  intro as
  induction as with
  | nil => intro bs c h; simp at h
  | cons a as ih =>
    intro bs c h
    cases bs with
    | nil => simp at h
    | cons b bs =>
      rw [List.zipWith_cons_cons, List.mem_cons] at h
      rcases h with rfl | h
      · exact ⟨a, List.mem_cons_self _ _, b, List.mem_cons_self _ _, rfl⟩
      · obtain ⟨x, hx, y, hy, rfl⟩ := ih h
        exact ⟨x, List.mem_cons_of_mem _ hx, y, List.mem_cons_of_mem _ hy, rfl⟩

/-- Every per-trial maximum lies in `[0,1]`: each entry of the concatenated
correlation block is a Pearson correlation. -/
theorem trialRow_bounds (mix rpm : List (List ℝ)) (rows : List ℕ) :
    ∀ x ∈ trialRow mix rpm rows, 0 ≤ x ∧ x ≤ 1 := by
  intro x hx
  rw [trialRow] at hx
  obtain ⟨r, hr, rfl⟩ := List.mem_map.mp hx
  refine ⟨maxAbs_nonneg r, maxAbs_le_one r ?_⟩
  intro y hy
  rw [trialCorrels, hstack2] at hr
  obtain ⟨ra, hra, rb, hrb, rfl⟩ := mem_zipWith hr
  rw [List.mem_append] at hy
  rcases hy with hya | hyb
  · rw [cross_correlation] at hra
    obtain ⟨i, _, rfl⟩ := List.mem_map.mp hra
    obtain ⟨j, _, rfl⟩ := List.mem_map.mp hya
    exact abs_pearson_le_one _ _
  · rw [cross_correlation] at hrb
    obtain ⟨i, _, rfl⟩ := List.mem_map.mp hrb
    obtain ⟨j, _, rfl⟩ := List.mem_map.mp hyb
    exact abs_pearson_le_one _ _

theorem mean_bounds (xs : List ℝ) (h : ∀ x ∈ xs, 0 ≤ x ∧ x ≤ 1) :
    0 ≤ mean xs ∧ mean xs ≤ 1 := by
  rw [mean]
  rcases eq_or_ne xs [] with rfl | hne
  · simp
  · have hlen : (0 : ℝ) < xs.length := by
      exact_mod_cast List.length_pos.mpr hne
    constructor
    · exact div_nonneg (List.sum_nonneg fun x hx => (h x hx).1) (le_of_lt hlen)
    · rw [div_le_one hlen]
      calc xs.sum ≤ xs.length • (1 : ℝ) :=
            List.sum_le_card_nsmul xs 1 fun x hx => (h x hx).2
        _ = (xs.length : ℝ) := by rw [nsmul_eq_mul, mul_one]

/-- Every entry of the abstracted temporal feature lies in `[0,1]`. -/
theorem featureTimeSeriesWith_bounds (mix rparams : List (List ℝ))
    (samples : List (List ℕ)) :
    ∀ x ∈ featureTimeSeriesWith mix rparams samples, 0 ≤ x ∧ x ≤ 1 := by
  intro x hx
  simp only [featureTimeSeriesWith] at hx
  obtain ⟨c, _, rfl⟩ := List.mem_map.mp hx
  apply mean_bounds
  intro y hy
  obtain ⟨tr, htr, rfl⟩ := List.mem_map.mp hy
  obtain ⟨rows, _, rfl⟩ := List.mem_map.mp htr
  rcases getD_mem_or (trialRow mix (rpModel rparams) rows) c 0 with hmem | h0
  · exact trialRow_bounds _ _ _ _ hmem
  · rw [h0]
    exact ⟨le_refl 0, zero_le_one⟩

/-! ### Claim theorems: classifier -/

/-- C1: with four equal-length feature vectors, the classifier flags component `i` as
motion exactly when `-19.9751070082159 + 9.95127547670627 * max_rp_correl_i
+ 24.8333160239175 * edge_fraction_i > 0` or `csf_fraction_i > 0.10` or `hfc_i > 0.35`;
and on the single-component input `max_rp_correl = 0.9`, `edge_fraction = 0.5`,
`hfc = 0.1`, `csf_fraction = 0.02` the result is `[0]`. -/
theorem C1_classifier_rule (r e h c : List ℚ)
    (hre : r.length = e.length) (_hrh : r.length = h.length) (_hrc : r.length = c.length)
    (i : ℕ) (hi : i < r.length) :
    (i ∈ classification r e h c ↔
      (0 < -19.9751070082159 + 9.95127547670627 * r.getD i 0 + 24.8333160239175 * e.getD i 0 ∨
       0.10 < c.getD i 0 ∨ 0.35 < h.getD i 0)) ∧
    classification [0.9] [0.5] [0.1] [0.02] = [0] := by
  constructor
  · have hproj := projection_getD r e i hi (hre ▸ hi)
    rw [classification, List.mem_filter, List.mem_range]
    simp only [Bool.or_eq_true, decide_eq_true_eq]
    rw [hproj]
    constructor
    · rintro ⟨-, (hp | hcsf) | hh⟩
      · exact Or.inl (by linarith)
      · exact Or.inr (Or.inl (by simpa [csf_threshold] using hcsf))
      · exact Or.inr (Or.inr (by simpa [hfc_threshold] using hh))
    · rintro (hp | hcsf | hh)
      · exact ⟨hi, Or.inl (Or.inl (by linarith))⟩
      · exact ⟨hi, Or.inl (Or.inr (by simpa [csf_threshold] using hcsf))⟩
      · exact ⟨hi, Or.inr (by simpa [hfc_threshold] using hh)⟩
  · simp only [classification, projection, hyperplane, csf_threshold, hfc_threshold,
      List.length_singleton, List.range_succ, List.range_zero, List.filter, List.zipWith,
      List.getD]
    norm_num

/-- C1 witness: the rule instantiated at a concrete valid input. -/
theorem C1_classifier_rule_witness :
    (0 ∈ classification [(0.9 : ℚ)] [0.5] [0.1] [0.02] ↔
      (0 < -19.9751070082159 + 9.95127547670627 * ([(0.9 : ℚ)].getD 0 0)
          + 24.8333160239175 * ([(0.5 : ℚ)].getD 0 0) ∨
       0.10 < [(0.02 : ℚ)].getD 0 0 ∨ 0.35 < [(0.1 : ℚ)].getD 0 0)) ∧
    classification [0.9] [0.5] [0.1] [0.02] = [0] :=
  C1_classifier_rule [0.9] [0.5] [0.1] [0.02] rfl rfl rfl 0 (by norm_num)

/-- C9: the classifier's index list is strictly ascending (hence sorted with no
duplicates) and every index is below the common length `N`. -/
theorem C9_classifier_invariants (r e h c : List ℚ) :
    (classification r e h c).Sorted (· < ·) ∧ (classification r e h c).Nodup ∧
    ∀ i ∈ classification r e h c, i < r.length := by
  refine ⟨(List.sorted_lt_range _).filter _, (List.nodup_range _).filter _, fun i hmem => ?_⟩
  rw [classification, List.mem_filter, List.mem_range] at hmem
  exact hmem.1

/-! ### Claim theorems: spatial feature -/

/-- C2 counterexample: a one-voxel component whose entire energy lies in the CSF mask
has `total_sum = csf_sum`, yet `feature_spatial` returns `csf_fraction = 0`, not `1`. -/
theorem C2_counterexample :
    zsum [2] = zsumMask [2] [true] ∧
    (feature_spatial [[2]] [true] [false] [false]).2 = [0] ∧
    (feature_spatial [[2]] [true] [false] [false]).2 ≠ [1] := by
  have hz : zsum [(2 : ℚ)] = 2 := by norm_num [zsum]
  have hm : zsumMask [(2 : ℚ)] [true] = 2 := by norm_num [zsumMask]
  have h2 : (feature_spatial [[(2 : ℚ)]] [true] [false] [false]).2 =
      csfFraction [zsum [2]] [zsumMask [2] [true]] := rfl
  have h0 : csfFraction [(2 : ℚ)] [2] = [0] := by norm_num [csfFraction]
  refine ⟨hz.trans hm.symm, ?_, ?_⟩ <;> rw [h2, hz, hm, h0]
  simp

/-- C2 (amended): for every component whose total absolute spatial sum equals its
CSF-mask sum, the spatial feature returns `edge_fraction = 0` and `csf_fraction = 0`
(the degenerate saturation rule applies, since `total_sum > csf_sum` fails). -/
theorem C2_amended_degenerate (frames : List (List ℚ)) (csfMask edgeMask outMask : List Bool)
    (i : ℕ) (hq : zsum (frames.getD i []) = zsumMask (frames.getD i []) csfMask) :
    (feature_spatial frames csfMask edgeMask outMask).1.getD i 0 = 0 ∧
    (feature_spatial frames csfMask edgeMask outMask).2.getD i 0 = 0 := by
  have htotal : (frames.map zsum).getD i 0 = zsum (frames.getD i []) :=
    getD_map_default _ _ _ _ _ (by simp [zsum])
  have hcsf : (frames.map (fun f => zsumMask f csfMask)).getD i 0 =
      zsumMask (frames.getD i []) csfMask :=
    getD_map_default _ _ _ _ _ (by simp [zsumMask])
  constructor
  · rw [feature_spatial, edgeFraction, getD_map_range]
    split
    · rw [htotal, hcsf, hq, if_neg (lt_irrefl _)]
    · rfl
  · rw [feature_spatial, csfFraction, getD_map_range]
    split
    · rw [htotal, hcsf, hq, if_neg (lt_irrefl _)]
    · rfl

/-- C2 witness: the amended degenerate rule at the concrete all-in-CSF input. -/
theorem C2_amended_degenerate_witness :
    zsum ([[(2 : ℚ)]].getD 0 []) = zsumMask ([[(2 : ℚ)]].getD 0 []) [true] ∧
    (feature_spatial [[2]] [true] [false] [false]).1.getD 0 0 = 0 ∧
    (feature_spatial [[2]] [true] [false] [false]).2.getD 0 0 = 0 :=
  ⟨by norm_num [zsum, zsumMask],
   C2_amended_degenerate [[2]] [true] [false] [false] 0 (by norm_num [zsum, zsumMask])⟩

/-! ### Claim theorems: frequency feature -/

/-- C5: for every frequency mixing matrix and repetition time strictly between 0.5 and
10 seconds, the frequency feature assigns row `i` the frequency `nyquist*(i+1)/F`,
keeps only rows strictly above 0.01 Hz, rescales linearly so that 0.01 Hz maps to 0
and Nyquist maps to 1, and returns per component the rescaled frequency of the kept
row whose cumulative power fraction has minimum squared distance from 0.5, ties
resolved by the lowest row index (a left-to-right minimum scan). -/
theorem C5_frequency_feature (ftmix : List (List ℚ)) (t_r : ℚ)
    (h1 : 1 / 2 < t_r) (h2 : t_r < 10) (hne : ftmix ≠ []) :
    feature_frequency ftmix t_r = (List.range (ncols ftmix)).map (hfcClaim ftmix t_r) ∧
    rescaleFreq (nyquistOf t_r) 0.01 = 0 ∧
    rescaleFreq (nyquistOf t_r) (nyquistOf t_r) = 1 := by
  refine ⟨feature_frequency_eq_claim ftmix t_r h1 h2 hne, ?_, ?_⟩
  · rw [rescaleFreq, sub_self, zero_div]
  · rw [rescaleFreq, div_self]
    exact sub_ne_zero.mpr (ne_of_gt (hundredth_lt_nyquistOf t_r h1 h2))

/-- C5 witness: the frequency-feature description at a concrete input. -/
theorem C5_frequency_feature_witness :
    feature_frequency [[(1 : ℚ)]] 2 =
      (List.range (ncols [[(1 : ℚ)]])).map (hfcClaim [[(1 : ℚ)]] 2) ∧
    rescaleFreq (nyquistOf 2) 0.01 = 0 ∧
    rescaleFreq (nyquistOf 2) (nyquistOf 2) = 1 :=
  C5_frequency_feature [[(1 : ℚ)]] 2 (by norm_num) (by norm_num) (by simp)

/-! ### Claim theorems: temporal feature -/

/-- C4 counterexample: at a concrete 3-timepoint, 1-component input, one trial's
concatenated squared and non-squared correlation block has 72 columns, not 54, so the
per-trial maximum ranges over 72 motion-model correlations. -/
theorem C4_counterexample :
    ncols (trialCorrels [[(1 : ℝ)], [2], [4]]
      (rpModel [List.replicate 6 (1 : ℝ), List.replicate 6 2, List.replicate 6 4])
      [0, 1, 2]) = 72 ∧ (72 : ℕ) ≠ 54 := by
  constructor
  · rfl
  · norm_num

/-- C4 (amended): for every rectangular T-row mixing matrix, T-row 6-column
motion-parameter matrix and family of 1000 drawn subsets of `round(0.9*T)` valid row
indices, the temporal feature score of each component equals the mean over the 1000
trials of the trial's maximum absolute correlation, where each trial correlates the
raw and squared component time course on the drawn rows against the correspondingly
raw and squared columns of the 36-column motion model (6 parameters, zero-padded
first differences, and zero-padded one-sample forward- and backward-shifted copies of
that 12-column combination), the per-trial maximum ranging over all 72 columns of the
concatenated squared and non-squared correlations. -/
theorem C4_temporal_structure (mix rparams : List (List ℝ)) (samples : List (List ℕ))
    (hmixrect : ∀ row ∈ mix, row.length = ncols mix)
    (hrect : ∀ row ∈ rparams, row.length = 6)
    (hT : rparams.length = mix.length)
    (_hcount : samples.length = 1000)
    (_hslen : ∀ s ∈ samples, s.length = nrowsToChoose mix.length)
    (hsvalid : ∀ s ∈ samples, s ≠ [] ∧ ∀ i ∈ s, i < mix.length) :
    featureTimeSeriesWith mix rparams samples =
      claimTemporalFeature mix rparams samples :=
  featureTimeSeriesWith_eq_claim mix rparams samples hmixrect hrect hT hsvalid

/-- C4 witness: the amended temporal-structure statement at a concrete input with
1000 trials over the full 3-row subset (`round(0.9*3) = 3`). -/
theorem C4_temporal_structure_witness :
    featureTimeSeriesWith [[(1 : ℝ)], [2], [4]]
        [List.replicate 6 (1 : ℝ), List.replicate 6 2, List.replicate 6 4]
        (List.replicate 1000 [0, 1, 2]) =
      claimTemporalFeature [[(1 : ℝ)], [2], [4]]
        [List.replicate 6 (1 : ℝ), List.replicate 6 2, List.replicate 6 4]
        (List.replicate 1000 [0, 1, 2]) := by
  apply C4_temporal_structure
  · intro row hrow
    simp only [List.mem_cons, List.mem_singleton] at hrow
    rcases hrow with rfl | rfl | (rfl | h)
    · rfl
    · rfl
    · rfl
    · exact absurd h (List.not_mem_nil _)
  · intro row hrow
    simp only [List.mem_cons, List.mem_singleton] at hrow
    rcases hrow with rfl | rfl | (rfl | h)
    · simp
    · simp
    · simp
    · exact absurd h (List.not_mem_nil _)
  · rfl
  · exact List.length_replicate 1000 _
  · intro s hs
    rw [List.eq_of_mem_replicate hs]
    rw [nrowsToChoose, pyRound]
    norm_num
    rfl
  · intro s hs
    rw [List.eq_of_mem_replicate hs]
    exact ⟨by simp, by intro i hi; fin_cases hi <;> norm_num⟩

/-- C8: every entry of each feature vector lies in `[0,1]`: the edge and CSF fractions
(with the three fixed anatomical masks pairwise disjoint; exactly 0 under the
degenerate rule), the high-frequency content, and the maximum RP correlation (an
averaged maximum of absolute Pearson correlations). -/
theorem C8_feature_score_bounds :
    (∀ (frames : List (List ℚ)) (csfMask edgeMask outMask : List Bool),
      (∀ i : ℕ, ¬(csfMask.getD i false ∧ edgeMask.getD i false) ∧
        ¬(csfMask.getD i false ∧ outMask.getD i false) ∧
        ¬(edgeMask.getD i false ∧ outMask.getD i false)) →
      (∀ x ∈ (feature_spatial frames csfMask edgeMask outMask).1, 0 ≤ x ∧ x ≤ 1) ∧
      (∀ x ∈ (feature_spatial frames csfMask edgeMask outMask).2, 0 ≤ x ∧ x ≤ 1)) ∧
    (∀ (ftmix : List (List ℚ)) (t_r : ℚ), 1 / 2 < t_r → t_r < 10 → ftmix ≠ [] →
      ∀ x ∈ feature_frequency ftmix t_r, 0 ≤ x ∧ x ≤ 1) ∧
    (∀ (mix rparams : List (List ℝ)) (samples : List (List ℕ)),
      ∀ x ∈ featureTimeSeriesWith mix rparams samples, 0 ≤ x ∧ x ≤ 1) :=
  ⟨fun frames csfMask edgeMask outMask hdisj =>
      feature_spatial_bounds frames csfMask edgeMask outMask hdisj,
   fun ftmix t_r h1 h2 hne => feature_frequency_bounds ftmix t_r h1 h2 hne,
   fun mix rparams samples => featureTimeSeriesWith_bounds mix rparams samples⟩

/-- C8 witness: the bounds instantiated at concrete inputs for all three features. -/
theorem C8_feature_score_bounds_witness :
    ((∀ x ∈ (feature_spatial [[(2 : ℚ)]] [true] [false] [false]).1, 0 ≤ x ∧ x ≤ 1) ∧
     (∀ x ∈ (feature_spatial [[(2 : ℚ)]] [true] [false] [false]).2, 0 ≤ x ∧ x ≤ 1)) ∧
    (∀ x ∈ feature_frequency [[(1 : ℚ)]] 2, 0 ≤ x ∧ x ≤ 1) ∧
    (∀ x ∈ featureTimeSeriesWith [[(1 : ℝ)], [2], [4]]
        [List.replicate 6 (1 : ℝ), List.replicate 6 2, List.replicate 6 4]
        (List.replicate 1000 [0, 1, 2]), 0 ≤ x ∧ x ≤ 1) :=
  ⟨C8_feature_score_bounds.1 [[(2 : ℚ)]] [true] [false] [false]
      (fun i => by rcases i with _ | i <;> simp),
   C8_feature_score_bounds.2.1 [[(1 : ℚ)]] 2 (by norm_num) (by norm_num) (by simp),
   C8_feature_score_bounds.2.2 _ _ _⟩

/-- C7: with a fixed seed the temporal feature does not depend on the pre-existing
global generator state — `random.seed(seed)` overwrites it — so two runs on identical
inputs with an identical seed produce identical `max_rp_correl` vectors. -/
theorem C7_seed_determinism (mix rparams : List (List ℝ)) (s : ℕ) (g1 g2 : ℕ) :
    feature_time_series mix rparams (some s) g1 =
      feature_time_series mix rparams (some s) g2 := rfl

/-! ### Claim theorems: denoising selector and pipeline -/

/-- C3 counterexample: with an empty motion set and mode `both`, the denoising stage
issues zero regression-filter requests (the code logs a warning and copies the input
instead), not two. -/
theorem C3_counterexample :
    phaseRegfiltRequests (denoisePhase "both" []) = [] ∧
    (phaseRegfiltRequests (denoisePhase "both" [])).length ≠ 2 := by
  exact ⟨rfl, by decide⟩

/-- C3 (amended): for every denoising invocation with an empty motion index set and a
mode other than `none`, no regression-filter request is issued; instead, once per
requested aggressiveness (twice for mode `both`), an explicit warning that no
components were removed is recorded and the input is copied to the output. -/
theorem C3_amended_empty_motion (denoise_type : String)
    (hdt : denoise_type ∈ ["nonaggr", "aggr", "both"]) :
    phaseRegfiltRequests (denoisePhase denoise_type []) = [] ∧
    phaseWarnings (denoisePhase denoise_type []) =
      (if denoise_type = "both" then 2 else 1) ∧
    phaseCopies (denoisePhase denoise_type []) =
      (if denoise_type = "both" then 2 else 1) := by
  simp only [List.mem_cons, List.mem_singleton] at hdt
  rcases hdt with rfl | rfl | (rfl | h)
  · exact ⟨rfl, by decide, by decide⟩
  · exact ⟨rfl, by decide, by decide⟩
  · exact ⟨rfl, by decide, by decide⟩
  · exact absurd h (List.not_mem_nil _)

/-- C3 witness: the amended statement at mode `both`. -/
theorem C3_amended_empty_motion_witness :
    phaseRegfiltRequests (denoisePhase "both" []) = [] ∧
    phaseWarnings (denoisePhase "both" []) = (if "both" = "both" then 2 else 1) ∧
    phaseCopies (denoisePhase "both" []) = (if "both" = "both" then 2 else 1) :=
  C3_amended_empty_motion "both" (by decide)

/-- C6: the empty motion set satisfies the claimed precondition (it is a subset of
`0..N-1`), yet `save_classification` fails with Python's `ValueError` raised by
`max([])` inside its assert instead of succeeding with an empty line; for a non-empty
sorted set it does write the 1-based comma-joined indices on one line. -/
theorem C6_empty_motion_value_error :
    save_classification [0.5] [0.5] [0.5] [0.5] [] =
      Except.error "ValueError: max() arg is an empty sequence" ∧
    save_classification [0.5, 0.5, 0.5] [0.5, 0.5, 0.5] [0.5, 0.5, 0.5] [0.5, 0.5, 0.5]
      [0, 2] = Except.ok "1,3\n" := by
  constructor
  · rfl
  · rfl

/-- C10: with every other precondition satisfied, `run_aroma` rejects any denoise type
outside none/aggr/nonaggr/both at its final assert before any processing (including the
command line's classification-only choice `no`), accepts each of the four modes, and
for mode `none` runs classification and reporting but makes no denoising invocation. -/
theorem C10_run_aroma_modes (dim : ℕ) (t_r : ℚ) (motion : List ℕ) (verbose : Bool)
    (hdim : dim < 100) (htr1 : 1/2 ≤ t_r) (htr2 : t_r < 10) :
    (∀ dt : String, dt ∉ ["none", "aggr", "nonaggr", "both"] →
      run_aroma true true true dim t_r true true true true dt motion verbose =
        Except.error "assert denoise_type in list") ∧
    ("no" ∉ ["none", "aggr", "nonaggr", "both"]) ∧
    (∀ dt ∈ ["none", "aggr", "nonaggr", "both"],
      ∃ trace, run_aroma true true true dim t_r true true true true dt motion verbose =
        Except.ok trace) ∧
    run_aroma true true true dim t_r true true true true "none" motion true =
      Except.ok [AromaStep.icaStep, AromaStep.registerStep, AromaStep.spatialStep,
        AromaStep.temporalStep, AromaStep.frequencyStep, AromaStep.classifyStep,
        AromaStep.saveStep] := by
  have htr1Q : (2⁻¹ : ℚ) ≤ t_r := by rwa [one_div] at htr1
  refine ⟨fun dt hdt => ?_, by decide, fun dt hdt => ?_, ?_⟩
  · simp [run_aroma, hdim, htr1Q, htr2, hdt]
  · refine ⟨[AromaStep.icaStep, AromaStep.registerStep, AromaStep.spatialStep,
      AromaStep.temporalStep, AromaStep.frequencyStep, AromaStep.classifyStep] ++
      denoisePhase dt motion ++ (if verbose then [AromaStep.saveStep] else []), ?_⟩
    simp [run_aroma, hdim, htr1Q, htr2, hdt]
  · simp only [run_aroma, Bool.not_true]
    rw [if_neg (by simp), if_neg (by simp), if_neg (by simp),
      if_neg (by simpa using hdim), if_neg (by simp [htr1Q, htr2]),
      if_neg (by simp), if_neg (by simp), if_neg (by simp), if_neg (by simp),
      if_neg (by simp)]
    rfl

/-- C10 witness: the mode contract at concrete in-range parameters. -/
theorem C10_run_aroma_modes_witness :
    (∀ dt : String, dt ∉ ["none", "aggr", "nonaggr", "both"] →
      run_aroma true true true 0 2 true true true true dt [] true =
        Except.error "assert denoise_type in list") ∧
    ("no" ∉ ["none", "aggr", "nonaggr", "both"]) ∧
    (∀ dt ∈ ["none", "aggr", "nonaggr", "both"],
      ∃ trace, run_aroma true true true 0 2 true true true true dt [] true =
        Except.ok trace) ∧
    run_aroma true true true 0 2 true true true true "none" [] true =
      Except.ok [AromaStep.icaStep, AromaStep.registerStep, AromaStep.spatialStep,
        AromaStep.temporalStep, AromaStep.frequencyStep, AromaStep.classifyStep,
        AromaStep.saveStep] :=
  C10_run_aroma_modes 0 2 [] true (by norm_num) (by norm_num) (by norm_num)

end Aroma
